import Mathlib

/-!
Verification of the CODH char-shapes data-preparation module
(`codh/char_shapes.py`) against its natural-language specification.

The development shallowly embeds the module:

* the local filesystem seen by the index builder is a rose tree of
  directories (`FSTree`); paths are lists of components, so
  `os.path.join a b` is `a ++ [b]` and `os.path.basename` is the last
  component (faithful because components never contain a separator);
* `os.walk` is `walkT` (top-down preorder, exactly the order CPython
  produces: the directory itself, then each subdirectory recursively);
* `CharShapes.get_characters_dir`, `load_img_list`, `__len__`,
  `__getitem__`, `classes` and `_check_integrity` are translated
  definition by definition;
* Python list subscripting (which accepts negative indices) is `pyIndex`;
  an `IndexError` / any raised error is `none`;
* `hashlib.md5` is an external library and is abstracted as a streaming
  digest (`MD5`): an initial state, an `update` that is a monoid action
  on byte strings (`update s [] = s`, `update s (a ++ b) =
  update (update s a) b` — true of every streaming hash), and a
  `hexdigest`.  The 1 MiB read loop of `_check_integrity` is embedded as is;
* `CharShapes.download` is embedded as a state machine over an
  association-list filesystem (`FS`), with the network
  (`urllib.request.urlopen` plus `.read()`) and the zip extractor as
  parameters; the emitted event trace (`Ev`) records each remote fetch,
  file write, extraction attempt and unlink in program order.
-/

/-- A directory: its name, the regular files directly inside it, and its
subdirectories.  Mirrors what `os.walk` observes on disk. -/
inductive FSTree where
  | node (name : String) (files : List String) (subs : List FSTree)

def FSTree.name : FSTree → String
  | .node n _ _ => n

def FSTree.files : FSTree → List String
  | .node _ f _ => f

def FSTree.subs : FSTree → List FSTree
  | .node _ _ s => s

/-- Python `"U+" in s` (substring containment), specialised to the two
characters the source tests for, over the character list of `s`. -/
def hasUplusList : List Char → Bool
  | [] => false
  | c :: rest => (decide (c = 'U') && decide (rest.head? = some '+')) || hasUplusList rest

def hasUplus (s : String) : Bool := hasUplusList s.toList

mutual

/-- `os.walk p` for the directory tree `t` mounted at path `p`: top-down
preorder, yielding the path of each visited directory together with its
tree (from which the `dirnames` and `filenames` of the walk tuple are
read off). -/
def walkT (p : List String) : FSTree → List (List String × FSTree)
  | .node n fs subs => (p, .node n fs subs) :: walkF p subs

/-- The concatenated walks of a list of sibling subdirectories whose
parent directory has path `p`. -/
def walkF (p : List String) : List FSTree → List (List String × FSTree)
  | [] => []
  | c :: rest => walkT (p ++ [c.name]) c ++ walkF p rest

end

/-- One entry of `images_with_labels`: the dictionary
`{image_path, code_point}` built by `load_img_list`. -/
structure ImgRecord where
  image_path : List String
  code_point : String
deriving DecidableEq, Repr

/-- The character directories discovered by `CharShapes.get_characters_dir`
(each subdirectory name containing `"U+"`, seen from any walk entry),
paired with the subtree rooted there so that the later `os.walk` over the
returned path can be evaluated in the embedding. -/
def charDirsT (p : List String) (t : FSTree) : List (List String × FSTree) :=
  ((walkT p t).map
    (fun e => (e.2.subs.filter (fun c => hasUplus c.name)).map
      (fun c => (e.1 ++ [c.name], c)))).flatten

/-- Character-directory discovery over a sibling list (the part of
`charDirsT` contributed by the walks of the subdirectories). -/
def charDirsF (p : List String) (l : List FSTree) : List (List String × FSTree) :=
  ((walkF p l).map
    (fun e => (e.2.subs.filter (fun c => hasUplus c.name)).map
      (fun c => (e.1 ++ [c.name], c)))).flatten

/-- `CharShapes.get_characters_dir` as written: just the paths. -/
def get_characters_dir (p : List String) (t : FSTree) : List (List String) :=
  (charDirsT p t).map Prod.fst

/-- The records contributed by `os.walk(char_dir)` for one character
directory: one record per file, labelled with the basename of the
directory the file sits in (`label = os.path.basename(dirname)`). -/
def dirRecords (q : List String) (u : FSTree) : List ImgRecord :=
  ((walkT q u).map
    (fun e => e.2.files.map
      (fun fn => ImgRecord.mk (e.1 ++ [fn]) (e.1.getLastD ("")) ))).flatten

/-- The labels appended to `classes` while walking one character
directory: the basename of every visited directory, files or not. -/
def dirClasses (q : List String) (u : FSTree) : List String :=
  (walkT q u).map (fun e => e.1.getLastD (""))

/-- `CharShapes.load_img_list` for the raw folder mounted at `p` with
contents `t`: the flat record list and `list(set(classes))`.  The source
builds both lists in one interleaved pass of appends; the result is the
same two lists.  `list(set(...))` has unspecified order and is modelled
as `List.dedup`. -/
def load_img_list (p : List String) (t : FSTree) : List ImgRecord × List String :=
  (((charDirsT p t).map (fun cd => dirRecords cd.1 cd.2)).flatten,
   (((charDirsT p t).map (fun cd => dirClasses cd.1 cd.2)).flatten).dedup)

mutual

/-- Number of files lying directly inside a subdirectory whose name
contains `"U+"`, summed over the whole tree (the `N` of the index
completeness property). -/
def countUplusFiles : FSTree → Nat
  | .node _ _ subs => countUF subs

def countUF : List FSTree → Nat
  | [] => 0
  | c :: rest =>
    (if hasUplus c.name then c.files.length else 0) + countUplusFiles c + countUF rest

end

mutual

/-- Every directory whose name contains `"U+"` is a leaf (has no
subdirectories): the flat layout under which the index-completeness
count is exact. -/
def flatUplus : FSTree → Bool
  | .node n _ subs => (!hasUplus n || subs.isEmpty) && flatUF subs

def flatUF : List FSTree → Bool
  | [] => true
  | c :: rest => flatUplus c && flatUF rest

end

mutual

/-- The names of all subdirectories (at any depth) whose name contains
`"U+"`, in preorder (the label vocabulary the spec predicts). -/
def uplusNames : FSTree → List String
  | .node _ _ subs => uplusNamesF subs

def uplusNamesF : List FSTree → List String
  | [] => []
  | c :: rest =>
    (if hasUplus c.name then [c.name] else []) ++ uplusNames c ++ uplusNamesF rest

end

mutual

/-- Total number of regular files anywhere in the tree. -/
def totalFiles : FSTree → Nat
  | .node _ fs subs => fs.length + totalFilesF subs

def totalFilesF : List FSTree → Nat
  | [] => 0
  | c :: rest => totalFiles c + totalFilesF rest

end

/-- A decoded image is a black box to this module (`skimage.io.imread`
is an outside collaborator), so the sample is parametric in the image
type. -/
structure Sample (Img : Type) where
  image : Img
  code_point : String

/-- Python list subscripting `l[i]` for an `int` index: non-negative
indices address from the front, negative indices from the back, and
anything outside `[-len(l), len(l))` raises `IndexError` (`none`). -/
def pyIndex {α : Type} (l : List α) (i : Int) : Option α :=
  if 0 ≤ i then l[i.toNat]?
  else if 0 ≤ (l.length : Int) + i then l[((l.length : Int) + i).toNat]?
  else none

/-- The state a `CharShapes` object holds after `__init__` (the
`download` branch is modelled separately by `download` below; `root` is
kept as the caller passed it — `os.path.expanduser` is the identity on
the abstract component paths used here). -/
structure CharShapes (Img : Type) where
  root : List String
  transform : Option (Sample Img → Sample Img)
  target_transform : Option (String → String)
  img_list : List ImgRecord
  classes_list : List String

/-- The raw folder name, the class attribute `raw_folder` of the source. -/
def raw_folder : String := "raw"

/-- `CharShapes.__init__(root, transform, target_transform)` over the
directory tree `rt` mounted at `root/raw`: stores the transforms and the
result of `load_img_list`. -/
def CharShapes.init {Img : Type} (root : List String)
    (transform : Option (Sample Img → Sample Img))
    (target_transform : Option (String → String)) (rt : FSTree) : CharShapes Img :=
  { root := root
    transform := transform
    target_transform := target_transform
    img_list := (load_img_list (root ++ [raw_folder]) rt).1
    classes_list := (load_img_list (root ++ [raw_folder]) rt).2 }

/-- `CharShapes.__len__`. -/
def CharShapes.size {Img : Type} (c : CharShapes Img) : Nat := c.img_list.length

/-- `CharShapes.classes`. -/
def CharShapes.classes {Img : Type} (c : CharShapes Img) : List String := c.classes_list

/-- `if self.transform: sample = self.transform(sample)` — `None` is
falsy, a callable is truthy. -/
def applyTransform {Img : Type} (tr : Option (Sample Img → Sample Img))
    (s : Sample Img) : Sample Img :=
  match tr with
  | some f => f s
  | none => s

/-- `CharShapes.__getitem__(idx)`: subscript `img_list`, decode the
image at the stored path (`imread` is the external decoder), build the
sample dictionary and pass it through the configured transform.
`target_transform` is not consulted anywhere in the method body. -/
def getitem {Img : Type} (imread : List String → Img) (c : CharShapes Img)
    (idx : Int) : Option (Sample Img) :=
  (pyIndex c.img_list idx).map
    (fun info => applyTransform c.transform (Sample.mk (imread info.image_path) info.code_point))

/-- Byte strings (the contents of local files and of network responses). -/
abbrev Content : Type := List Nat

/-- `hashlib.md5` abstracted as a streaming digest: `update` is a monoid
action on byte strings (feeding the empty chunk changes nothing, and
feeding `a ++ b` equals feeding `a` then `b` — both hold of every
incremental hash), and `hexdigest` renders the state. -/
structure MD5 where
  State : Type
  start : State
  update : State → Content → State
  hexdigest : State → String
  update_nil : ∀ s, update s [] = s
  update_append : ∀ s a b, update s (a ++ b) = update (update s a) b

/-- The hex digest of a whole byte string fed in one piece. -/
def MD5.digest (M : MD5) (c : Content) : String := M.hexdigest (M.update M.start c)

/-- `f.read(1024 * 1024)` chunk size. -/
def chunkBytes : Nat := 1024 * 1024

/-- Fuelled chunking loop; the fuel only bounds the number of
iterations (each non-empty read consumes at least one byte, so a fuel of
the file length always suffices). -/
def readChunksAux : Nat → Content → List Content
  | _, [] => []
  | 0, _ :: _ => []
  | Nat.succ f, x :: xs =>
    List.take chunkBytes (x :: xs) :: readChunksAux f (List.drop chunkBytes (x :: xs))

/-- The chunks produced by the `iter` over `f.read(1024 * 1024)`:
maximal 1 MiB slices of the file, stopping at the first empty read. -/
def readChunks (l : Content) : List Content := readChunksAux l.length l

/-- The local filesystem seen by `download`: an association list from
paths to the contents of the regular file there (directories are not
modelled; `os.path.isfile` is `fsLookup ≠ none`). -/
def FS : Type := List (List String × Content)

/-- Content of the regular file at `p`, if one exists. -/
def fsLookup (fs : FS) (p : List String) : Option Content :=
  match fs with
  | [] => none
  | (q, c) :: rest => if q = p then some c else fsLookup rest p

/-- Remove the file at `p` (`os.unlink`). -/
def fsErase (fs : FS) (p : List String) : FS :=
  match fs with
  | [] => []
  | (q, c) :: rest => if q = p then fsErase rest p else (q, c) :: fsErase rest p

/-- Opening the path in mode wb followed by one full write: the previous content is
truncated away and replaced in full. -/
def fsWrite (fs : FS) (p : List String) (c : Content) : FS :=
  (p, c) :: fsErase fs p

/-- `CharShapes._check_integrity(fpath, md5)`: false when no regular
file is at the path; otherwise stream the file through the digest in
1 MiB chunks and compare hex digests for exact (case-sensitive) string
equality. -/
def check_integrity (M : MD5) (fs : FS) (fpath : List String) (md5 : String) : Bool :=
  match fsLookup fs fpath with
  | none => false
  | some content =>
    let md5c := M.hexdigest ((readChunks content).foldl M.update M.start)
    if md5c ≠ md5 then false else true

/-- The class attribute `book_ids` (the fixed 15-entry catalog). -/
def book_ids : List String :=
  ["200003076", "200003967", "200014740", "200021637", "200021660",
   "200021712", "200021763", "200021802", "200021851", "200021853",
   "200021869", "200021925", "200022050", "brsk00000", "hnsd00000"]

/-- The class attribute `zips_md5` (expected MD5 hex digest per archive
file name), kept as the dictionary the source hard-codes. -/
def zips_md5 : List (String × String) :=
  [("200021660.zip", "472edecf9ebb1aa73937ad298a0664a1"),
   ("200003967.zip", "fa3100fd0da6a670c0e63aeeedef8e5c"),
   ("200021925.zip", "e1f6a57bfea7f2203dc367045df6f614"),
   ("200021712.zip", "c516c4b44782ebec6915d6862b7a1c7b"),
   ("brsk00000.zip", "b52a20509e391650b6532484aae4e191"),
   ("hnsd00000.zip", "208956eeea1a37a231dfb2dba6cc0608"),
   ("200014740.zip", "4a8ded7745a8447577c98205fc9ba7a7"),
   ("200003076.zip", "46571ea44b897d335fc8968ad8c496de"),
   ("200022050.zip", "fd62690aa1cd9ab1380d8782f6dc5f76"),
   ("200021802.zip", "4d15096d97e95b219a6ba0d60da046a8"),
   ("200021869.zip", "5ebba23cf69b49ddee5abac9361d305c"),
   ("200021637.zip", "2c238dc7bf696a20d116c1023c38e00f"),
   ("200021853.zip", "3224bd91ae222d15ccbe04948bff5dd5"),
   ("200021763.zip", "df364b6e775f9f85b55b7aadd8f64e71"),
   ("200021851.zip", "0c4b941c41b0f501c235795d95ef8252")]

/-- Dictionary lookup `self.zips_md5[filename]` (every file name reached
by the loop is a key, so the `KeyError` case is irrelevant and defaulted). -/
def zipsMd5Of (filename : String) : String :=
  (zips_md5.lookup filename).getD ("")

/-- `download_url_format.format(book_id, book_id)` with the class
attribute `download_url_format` (both placeholders filled with the book id). -/
def urlOf (book_id : String) : String :=
  "http://codh.rois.ac.jp/char-shape/book/" ++ book_id ++ "/" ++ book_id ++ ".zip"

/-- `url.rpartition('/')[2]`: the text after the last separator (the
whole string when the separator does not occur).  Implemented as a left
fold that restarts the current segment at each `'/'`. -/
def rpartAfter (s : String) : String :=
  String.mk (s.toList.foldl (fun acc c => if c = '/' then [] else acc ++ [c]) [])

/-- The archive file name the loop computes for a book. -/
def filenameOf (book_id : String) : String := rpartAfter (urlOf book_id)

/-- `os.path.join(self.root, self.raw_folder, filename)`. -/
def archivePath (root : List String) (filename : String) : List String :=
  root ++ [raw_folder, filename]

/-- `file_path.replace(...)` deleting every occurrence of the text
`.zip`: since that text contains no path
separator, replacing in the joined string is replacing in each
component. -/
def targetPath (root : List String) (filename : String) : List String :=
  (archivePath root filename).map (fun s => s.replace (".zip") (""))

/-- Observable actions of one `download` run, in program order:
`urllib.request.urlopen` (the remote access), the full-file write of the
response body, the extraction attempt into the target directory, and
`os.unlink` of the archive. -/
inductive Ev where
  | fetch (url : String)
  | write (path : List String) (content : Content)
  | extract (path : List String)
  | unlink (path : List String)
deriving DecidableEq

/-- Result of a possibly interrupted `download` run: the filesystem, the emitted
events, and whether the run completed without a raised exception. -/
structure StepOut where
  fs : FS
  events : List Ev
  ok : Bool

/-- One iteration of the `for book_id in self.book_ids` loop.  Note the
order taken from the source: `urlopen` is called *before*
`_check_integrity`, so the remote access happens even when the archive
is already verified; only the body read/write is skipped.  On a checksum
miss the response body is written over the archive path, extraction is
attempted (`extractOk` says whether the zip library succeeds on these
bytes; the extracted image files live outside this model), and only
after a successful extraction is the archive unlinked.  A failed
extraction raises, leaving the freshly written archive in place. -/
def downloadStep (M : MD5) (net : String → Content) (extractOk : Content → Bool)
    (root : List String) (fs : FS) (book_id : String) : StepOut :=
  let url := urlOf book_id
  let data := net url
  let filename := rpartAfter url
  let file_path := archivePath root filename
  if check_integrity M fs file_path (zipsMd5Of filename) then
    StepOut.mk fs [Ev.fetch url] true
  else
    let fs1 := fsWrite fs file_path data
    let tgt := targetPath root filename
    if extractOk data then
      StepOut.mk (fsErase fs1 file_path)
        [Ev.fetch url, Ev.write file_path data, Ev.extract tgt, Ev.unlink file_path] true
    else
      StepOut.mk fs1 [Ev.fetch url, Ev.write file_path data, Ev.extract tgt] false

/-- The catalog loop: sequential, aborting on the first raised
exception (the remaining books are not processed).  The initial
`os.makedirs` of the raw folder tolerates pre-existence and is not
claim-relevant, so it is not an event. -/
def downloadLoop (M : MD5) (net : String → Content) (extractOk : Content → Bool)
    (root : List String) : List String → FS → List Ev → StepOut
  | [], fs, evs => StepOut.mk fs evs true
  | b :: rest, fs, evs =>
    let s := downloadStep M net extractOk root fs b
    if s.ok then downloadLoop M net extractOk root rest s.fs (evs ++ s.events)
    else StepOut.mk s.fs (evs ++ s.events) false

/-- `CharShapes.download` over the fixed catalog. -/
def download (M : MD5) (net : String → Content) (extractOk : Content → Bool)
    (root : List String) (fs : FS) : StepOut :=
  downloadLoop M net extractOk root book_ids fs []

/-- Trivial image decoder used to evaluate the accessor on concrete
inputs (the decoder is an external collaborator, so any function will
do). -/
def uRead : List String → Unit := fun _ => ()

/-- A raw folder holding one label directory with one image. -/
def wTreeOne : FSTree := FSTree.node ("raw") [] [FSTree.node ("U+4E00") (["a.jpg"]) []]

/-- A one-record accessor over `wTreeOne`. -/
def cexCS : CharShapes Unit := CharShapes.init (["h"]) none none wTreeOne

/-- The raw-folder mount path used by the concrete examples. -/
def pW : List String := ["h", "raw"]

/-- A flat raw folder: two label directories, three images in total. -/
def wTreeFlat : FSTree :=
  FSTree.node ("raw") []
    [FSTree.node ("U+4E00") (["a.jpg", "b.jpg"]) [],
     FSTree.node ("U+4E01") (["c.jpg"]) []]

/-- A raw folder whose only label directory holds no files. -/
def wTreeEmptyLabel : FSTree := FSTree.node ("raw") [] [FSTree.node ("U+4E00") [] []]

/-- A raw folder with one `"U+"` directory nested inside another. -/
def wTreeNested : FSTree :=
  FSTree.node ("raw") [] [FSTree.node ("U+A") [] [FSTree.node ("U+B") (["f.jpg"]) []]]

/-- A raw folder whose label directory has a plain subdirectory holding
the only image. -/
def wTreeSub : FSTree :=
  FSTree.node ("raw") [] [FSTree.node ("U+A") [] [FSTree.node ("sub") (["f.jpg"]) []]]

/-- Bytes of a string, for building file contents in examples. -/
def strBytes (s : String) : Content := s.toList.map Char.toNat

/-- A concrete streaming digest satisfying the `MD5` laws: the state
accumulates the fed bytes and the hex digest renders them as characters,
so `digest (strBytes s) = s` for ASCII `s`. -/
def natMD5 : MD5 where
  State := Content
  start := []
  update := fun s c => s ++ c
  hexdigest := fun s => String.mk (s.map Char.ofNat)
  update_nil := fun s => List.append_nil s
  update_append := fun s a b => (List.append_assoc s a b).symm

/-- A filesystem in which every archive of the catalog is present under
`h/raw` with content whose `natMD5` digest matches the expected value. -/
def fsVerified : FS :=
  book_ids.map
    (fun b => (archivePath (["h"]) (filenameOf b), strBytes (zipsMd5Of (filenameOf b))))

/-- A network that answers every URL with the empty body. -/
def netW : String → Content := fun _ => []

/-- An extractor succeeding on every archive. -/
def xoTrue : Content → Bool := fun _ => true

/-- An extractor failing on every archive. -/
def xoFalse : Content → Bool := fun _ => false

/-- A filesystem holding one stale archive (content `[0]`, whose digest
does not match the expected checksum). -/
def fsBad : FS := [(archivePath (["h"]) (filenameOf ("200003076")), [0])]

/-! Helper lemmas. -/

/-- Induction over the rose tree with the hypothesis available for every
subdirectory. -/
theorem FSTree.ind {motive : FSTree → Prop}
    (h : ∀ n fs subs, (∀ c, c ∈ subs → motive c) → motive (FSTree.node n fs subs)) :
    ∀ t, motive t
  | .node n fs subs => h n fs subs (fun c _ => FSTree.ind h c)
termination_by t => sizeOf t
decreasing_by
  rename_i hc
  have := List.sizeOf_lt_of_mem hc
  simp only [FSTree.node.sizeOf_spec]
  omega

@[simp]
theorem walkT_node (p : List String) (n : String) (fs : List String) (subs : List FSTree) :
    walkT p (FSTree.node n fs subs) = (p, FSTree.node n fs subs) :: walkF p subs := by
  rw [walkT]

@[simp]
theorem walkF_nil (p : List String) : walkF p [] = [] := by
  rw [walkF]

@[simp]
theorem walkF_cons (p : List String) (c : FSTree) (rest : List FSTree) :
    walkF p (c :: rest) = walkT (p ++ [c.name]) c ++ walkF p rest := by
  rw [walkF]

theorem mem_walkF {e : List String × FSTree} {p : List String} {l : List FSTree} :
    e ∈ walkF p l ↔ ∃ c ∈ l, e ∈ walkT (p ++ [c.name]) c := by
  induction l with
  | nil => simp
  | cons c rest ih => simp [List.mem_append, ih]

theorem walkT_self (p : List String) (t : FSTree) : (p, t) ∈ walkT p t := by
  cases t with
  | node n fs subs => simp

theorem getLastD_append_singleton {α : Type} (l : List α) (a d : α) :
    (l ++ [a]).getLastD d = a := by
  induction l generalizing d with
  | nil => rfl
  | cons x xs ih =>
    rw [List.cons_append, List.getLastD_cons]
    exact ih x

theorem walkT_path :
    ∀ (t : FSTree) (p : List String) (e : List String × FSTree),
      e ∈ walkT p t → ∃ s, e.1 = p ++ s := by
  intro t
  induction t using FSTree.ind with
  | h n fs subs ih =>
    intro p e he
    rw [walkT_node] at he
    rcases List.mem_cons.mp he with h1 | h2
    · exact ⟨[], by simp [h1]⟩
    · rcases mem_walkF.mp h2 with ⟨c, hc, hw⟩
      rcases ih c hc (p ++ [c.name]) e hw with ⟨s, hs⟩
      exact ⟨[c.name] ++ s, by simp [hs]⟩

theorem flatUF_mem {l : List FSTree} {c : FSTree} (hl : flatUF l = true) (hc : c ∈ l) :
    flatUplus c = true := by
  induction l with
  | nil => cases hc
  | cons x rest ih =>
    have hsplit : flatUplus x = true ∧ flatUF rest = true := by
      rw [flatUF] at hl
      simpa using hl
    rcases List.mem_cons.mp hc with h1 | h2
    · exact h1 ▸ hsplit.1
    · exact ih hsplit.2 h2

theorem walkT_flat :
    ∀ (t : FSTree), flatUplus t = true →
      ∀ (p : List String) (e : List String × FSTree), e ∈ walkT p t → flatUplus e.2 = true := by
  intro t
  induction t using FSTree.ind with
  | h n fs subs ih =>
    intro hflat p e he
    rw [walkT_node] at he
    rcases List.mem_cons.mp he with h1 | h2
    · simp [h1, hflat]
    · rcases mem_walkF.mp h2 with ⟨c, hc, hw⟩
      have hfl : flatUF subs = true := by
        rw [flatUplus] at hflat
        exact (by simpa using hflat : _ ∧ flatUF subs = true).2
      exact ih c hc (flatUF_mem hfl hc) (p ++ [c.name]) e hw

@[simp]
theorem charDirsF_nil (p : List String) : charDirsF p [] = [] := by
  simp [charDirsF]

@[simp]
theorem charDirsF_cons (p : List String) (c : FSTree) (rest : List FSTree) :
    charDirsF p (c :: rest) = charDirsT (p ++ [c.name]) c ++ charDirsF p rest := by
  simp [charDirsF, charDirsT, List.map_append]

theorem charDirsT_node (p : List String) (n : String) (fs : List String)
    (subs : List FSTree) :
    charDirsT p (FSTree.node n fs subs)
      = ((subs.filter (fun c => hasUplus c.name)).map (fun c => (p ++ [c.name], c)))
        ++ charDirsF p subs := by
  simp [charDirsT, charDirsF, FSTree.subs]

theorem mem_charDirsF {cd : List String × FSTree} {p : List String} {l : List FSTree} :
    cd ∈ charDirsF p l ↔ ∃ c ∈ l, cd ∈ charDirsT (p ++ [c.name]) c := by
  induction l with
  | nil => simp
  | cons c rest ih => simp [List.mem_append, ih]

theorem mem_charDirsT {cd : List String × FSTree} {p : List String} {t : FSTree} :
    cd ∈ charDirsT p t
      ↔ ∃ e ∈ walkT p t, ∃ c ∈ e.2.subs,
          hasUplus c.name = true ∧ cd = (e.1 ++ [c.name], c) := by
  simp only [charDirsT, List.mem_flatten, List.mem_map, List.mem_filter]
  constructor
  · rintro ⟨l, ⟨e, he, rfl⟩, hm⟩
    rcases List.mem_map.mp hm with ⟨c, hc, rfl⟩
    exact ⟨e, he, c, (List.mem_filter.mp hc).1, (List.mem_filter.mp hc).2, rfl⟩
  · rintro ⟨e, he, c, hc, hu, rfl⟩
    exact ⟨_, ⟨e, he, rfl⟩, List.mem_map.mpr ⟨c, List.mem_filter.mpr ⟨hc, hu⟩, rfl⟩⟩

/-- Character directories of a flat tree are `"U+"`-named leaves whose
path basename is their own name. -/
theorem charDir_flat {p : List String} {t : FSTree} {cd : List String × FSTree}
    (hflat : flatUplus t = true) (hm : cd ∈ charDirsT p t) :
    hasUplus cd.2.name = true ∧ cd.2.subs = [] ∧ cd.1.getLastD ("") = cd.2.name := by
  rcases mem_charDirsT.mp hm with ⟨e, he, c, hc, hu, rfl⟩
  have hef : flatUplus e.2 = true := walkT_flat t hflat p e he
  have hcf : flatUplus c = true := by
    cases he2 : e.2 with
    | node n fs subs =>
      rw [he2] at hef hc
      rw [flatUplus] at hef
      exact flatUF_mem (by simpa using hef : _ ∧ flatUF subs = true).2 (by simpa [FSTree.subs] using hc)
  have hleaf : c.subs = [] := by
    cases hc3 : c with
    | node n fs subs =>
      rw [hc3] at hcf hu
      rw [flatUplus] at hcf
      have h1 : (!hasUplus n || subs.isEmpty) = true :=
        (by simpa using hcf : _ ∧ flatUF subs = true).1
      have hn : hasUplus n = true := by simpa [FSTree.name] using hu
      simp [hn] at h1
      simpa [FSTree.subs] using h1
  exact ⟨hu, hleaf, getLastD_append_singleton _ _ _⟩

/-- `os.walk` of a leaf directory yields exactly the directory itself. -/
theorem walkT_leaf {q : List String} {u : FSTree} (h : u.subs = []) :
    walkT q u = [(q, u)] := by
  cases u with
  | node n fs subs =>
    have : subs = [] := by simpa [FSTree.subs] using h
    simp [this]

theorem sum_map_filter_hasUplus (l : List FSTree) (f : FSTree → Nat) :
    ((l.filter (fun c => hasUplus c.name)).map f).sum
      = (l.map (fun c => if hasUplus c.name then f c else 0)).sum := by
  induction l with
  | nil => rfl
  | cons c rest ih =>
    by_cases h : hasUplus c.name = true
    · simp [List.filter_cons, h, ih]
    · simp [List.filter_cons, h, ih, Bool.eq_false_iff.mpr h]

theorem sum_map_add_distrib {α : Type} (l : List α) (f g : α → Nat) :
    (l.map (fun c => f c + g c)).sum = (l.map f).sum + (l.map g).sum := by
  induction l with
  | nil => rfl
  | cons c rest ih =>
    simp [ih]
    omega

theorem countUF_eq_sum (l : List FSTree) :
    countUF l
      = (l.map (fun c => (if hasUplus c.name then c.files.length else 0)
          + countUplusFiles c)).sum := by
  induction l with
  | nil => rfl
  | cons c rest ih =>
    rw [countUF, ih]
    simp only [List.map_cons, List.sum_cons]

theorem sum_files_charDirsF (p : List String) (l : List FSTree)
    (ih : ∀ c ∈ l, ∀ q, ((charDirsT q c).map (fun cd => cd.2.files.length)).sum
            = countUplusFiles c) :
    ((charDirsF p l).map (fun cd => cd.2.files.length)).sum
      = (l.map countUplusFiles).sum := by
  induction l with
  | nil => simp
  | cons c rest ihl =>
    rw [charDirsF_cons, List.map_append, List.sum_append,
      ih c (List.mem_cons_self c rest) (p ++ [c.name]),
      ihl (fun d hd q => ih d (List.mem_cons_of_mem c hd) q)]
    simp

/-- Summing direct file counts over the discovered character
directories equals the per-tree count of files directly inside
`"U+"`-named subdirectories (no flatness needed). -/
theorem sum_files_charDirsT :
    ∀ (t : FSTree) (p : List String),
      ((charDirsT p t).map (fun cd => cd.2.files.length)).sum = countUplusFiles t := by
  intro t
  induction t using FSTree.ind with
  | h n fs subs ih =>
    intro p
    rw [charDirsT_node, List.map_append, List.sum_append,
      sum_files_charDirsF p subs (fun c hc q => ih c hc q)]
    rw [countUplusFiles]
    rw [countUF_eq_sum]
    have hmapmap : ((subs.filter (fun c => hasUplus c.name)).map
        (fun c => (p ++ [c.name], c))).map (fun cd => cd.2.files.length)
        = (subs.filter (fun c => hasUplus c.name)).map (fun c => c.files.length) := by
      rw [List.map_map]
      rfl
    rw [hmapmap, sum_map_filter_hasUplus, sum_map_add_distrib]

theorem mem_uplusNamesF {s : String} {l : List FSTree} :
    s ∈ uplusNamesF l
      ↔ ∃ c ∈ l, (hasUplus c.name = true ∧ c.name = s) ∨ s ∈ uplusNames c := by
  induction l with
  | nil => simp [uplusNamesF]
  | cons c rest ih =>
    rw [uplusNamesF]
    constructor
    · intro hs
      rcases List.mem_append.mp hs with h1 | h2
      · rcases List.mem_append.mp h1 with ha | hb
        · by_cases h : hasUplus c.name = true
          · rw [if_pos h] at ha
            have hsc : s = c.name := by simpa using ha
            exact ⟨c, List.mem_cons_self c rest, Or.inl ⟨h, hsc.symm⟩⟩
          · rw [if_neg h] at ha
            cases ha
        · exact ⟨c, List.mem_cons_self c rest, Or.inr hb⟩
      · rcases ih.mp h2 with ⟨d, hd, hp⟩
        exact ⟨d, List.mem_cons_of_mem c hd, hp⟩
    · rintro ⟨d, hd, hp⟩
      rcases List.mem_cons.mp hd with rfl | hd2
      · rcases hp with ⟨hu, rfl⟩ | hm
        · refine List.mem_append.mpr (Or.inl (List.mem_append.mpr (Or.inl ?_)))
          rw [if_pos hu]
          exact List.mem_singleton.mpr rfl
        · exact List.mem_append.mpr (Or.inl (List.mem_append.mpr (Or.inr hm)))
      · exact List.mem_append.mpr (Or.inr (ih.mpr ⟨d, hd2, hp⟩))

/-- The names of the discovered character directories are exactly the
`"U+"`-containing subdirectory names of the tree (any mount path). -/
theorem mem_name_charDirsT :
    ∀ (t : FSTree) (p : List String) (s : String),
      (∃ cd ∈ charDirsT p t, cd.2.name = s) ↔ s ∈ uplusNames t := by
  intro t
  induction t using FSTree.ind with
  | h n fs subs ih =>
    intro p s
    rw [uplusNames, mem_uplusNamesF]
    constructor
    · rintro ⟨cd, hm, rfl⟩
      rw [charDirsT_node] at hm
      rcases List.mem_append.mp hm with h1 | h2
      · rcases List.mem_map.mp h1 with ⟨c, hc, rfl⟩
        exact ⟨c, (List.mem_filter.mp hc).1, Or.inl ⟨(List.mem_filter.mp hc).2, rfl⟩⟩
      · rcases mem_charDirsF.mp h2 with ⟨c, hc, hcd⟩
        exact ⟨c, hc, Or.inr ((ih c hc (p ++ [c.name]) cd.2.name).mp ⟨cd, hcd, rfl⟩)⟩
    · rintro ⟨c, hc, (⟨hu, rfl⟩ | hm)⟩
      · refine ⟨(p ++ [c.name], c), ?_, rfl⟩
        rw [charDirsT_node]
        exact List.mem_append.mpr (Or.inl (List.mem_map.mpr
          ⟨c, List.mem_filter.mpr ⟨hc, hu⟩, rfl⟩))
      · rcases (ih c hc (p ++ [c.name]) s).mpr hm with ⟨cd, hcd, rfl⟩
        refine ⟨cd, ?_, rfl⟩
        rw [charDirsT_node]
        exact List.mem_append.mpr (Or.inr (mem_charDirsF.mpr ⟨c, hc, hcd⟩))

theorem mem_dirRecords {r : ImgRecord} {q : List String} {u : FSTree} :
    r ∈ dirRecords q u
      ↔ ∃ e ∈ walkT q u, ∃ fn ∈ e.2.files,
          r = ImgRecord.mk (e.1 ++ [fn]) (e.1.getLastD ("")) := by
  simp only [dirRecords, List.mem_flatten, List.mem_map]
  constructor
  · rintro ⟨l, ⟨e, he, rfl⟩, hr⟩
    rcases List.mem_map.mp hr with ⟨fn, hfn, rfl⟩
    exact ⟨e, he, fn, hfn, rfl⟩
  · rintro ⟨e, he, fn, hfn, rfl⟩
    exact ⟨_, ⟨e, he, rfl⟩, List.mem_map.mpr ⟨fn, hfn, rfl⟩⟩

theorem mem_records {r : ImgRecord} {p : List String} {t : FSTree} :
    r ∈ (load_img_list p t).1
      ↔ ∃ cd ∈ charDirsT p t, ∃ e ∈ walkT cd.1 cd.2, ∃ fn ∈ e.2.files,
          r = ImgRecord.mk (e.1 ++ [fn]) (e.1.getLastD ("")) := by
  simp only [load_img_list, List.mem_flatten, List.mem_map]
  constructor
  · rintro ⟨l, ⟨cd, hcd, rfl⟩, hr⟩
    rcases mem_dirRecords.mp hr with ⟨e, he, fn, hfn, rfl⟩
    exact ⟨cd, hcd, e, he, fn, hfn, rfl⟩
  · rintro ⟨cd, hcd, e, he, fn, hfn, rfl⟩
    exact ⟨_, ⟨cd, hcd, rfl⟩, mem_dirRecords.mpr ⟨e, he, fn, hfn, rfl⟩⟩

theorem mem_classes {s : String} {p : List String} {t : FSTree} :
    s ∈ (load_img_list p t).2
      ↔ ∃ cd ∈ charDirsT p t, ∃ e ∈ walkT cd.1 cd.2, e.1.getLastD ("") = s := by
  simp only [load_img_list, List.mem_dedup, List.mem_flatten, List.mem_map, dirClasses]
  constructor
  · rintro ⟨l, ⟨cd, hcd, rfl⟩, hs⟩
    rcases List.mem_map.mp hs with ⟨e, he, rfl⟩
    exact ⟨cd, hcd, e, he, rfl⟩
  · rintro ⟨cd, hcd, e, he, rfl⟩
    exact ⟨_, ⟨cd, hcd, rfl⟩, List.mem_map.mpr ⟨e, he, rfl⟩⟩

theorem dirRecords_leaf {q : List String} {u : FSTree} (h : u.subs = []) :
    dirRecords q u
      = u.files.map (fun fn => ImgRecord.mk (q ++ [fn]) (q.getLastD (""))) := by
  rw [dirRecords, walkT_leaf h]
  simp

theorem dirClasses_leaf {q : List String} {u : FSTree} (h : u.subs = []) :
    dirClasses q u = [q.getLastD ("")] := by
  rw [dirClasses, walkT_leaf h]
  rfl

theorem flatten_map_singleton {α β : Type} (L : List α) (f : α → List β) (g : α → β)
    (h : ∀ x ∈ L, f x = [g x]) : (L.map f).flatten = L.map g := by
  induction L with
  | nil => rfl
  | cons c rest ih =>
    simp only [List.map_cons, List.flatten_cons, h c (List.mem_cons_self c rest),
      ih (fun x hx => h x (List.mem_cons_of_mem c hx))]
    rfl

theorem pyIndex_ofNat {α : Type} (l : List α) (n : Nat) : pyIndex l (n : Int) = l[n]? := by
  simp [pyIndex]

theorem pyIndex_neg {α : Type} (l : List α) (k : Nat) (h1 : 1 ≤ k) (h2 : k ≤ l.length) :
    pyIndex l (-(k : Int)) = l[l.length - k]? := by
  rw [pyIndex, if_neg (by omega : ¬ (0 : Int) ≤ -(k : Int)),
    if_pos (by omega : (0 : Int) ≤ (l.length : Int) + -(k : Int))]
  congr 1
  omega

theorem pyIndex_neg_oob {α : Type} (l : List α) (k : Nat) (h2 : l.length < k) :
    pyIndex l (-(k : Int)) = none := by
  rw [pyIndex, if_neg (by omega : ¬ (0 : Int) ≤ -(k : Int)),
    if_neg (by omega : ¬ (0 : Int) ≤ (l.length : Int) + -(k : Int))]

/-- The claim of C1 fails on the code: this accessor has one record, yet
`get(-1)` succeeds (Python negative indexing) instead of failing with an
out-of-range error as claimed. -/
theorem c1_counterexample : 0 < cexCS.size ∧ (getitem uRead cexCS (-1)).isSome = true := by
  decide

/-- C1 (amended): `get(size())` always fails with an out-of-range
error; when `size() > 0`, `get(0)`, `get(size()-1)` and also `get(-1)`
all succeed; `get(-1)` fails only when `size() = 0`. -/
theorem c1_amended {Img : Type} (imread : List String → Img) (c : CharShapes Img) :
    getitem imread c (c.size : Int) = none
    ∧ (0 < c.size →
        (getitem imread c 0).isSome = true
        ∧ (getitem imread c ((c.size : Int) - 1)).isSome = true
        ∧ (getitem imread c (-1)).isSome = true)
    ∧ (c.size = 0 → getitem imread c (-1) = none) := by
  simp only [CharShapes.size]
  refine ⟨?_, ?_, ?_⟩
  · rw [getitem, pyIndex_ofNat, List.getElem?_eq_none (Nat.le_refl _)]
    rfl
  · intro hpos
    refine ⟨?_, ?_, ?_⟩
    · rw [getitem]
      have h0 : pyIndex c.img_list 0 = c.img_list[0]? := pyIndex_ofNat c.img_list 0
      rw [h0, List.getElem?_eq_getElem hpos]
      rfl
    · rw [getitem, pyIndex,
        if_pos (by omega : (0 : Int) ≤ (c.img_list.length : Int) - 1)]
      have hsz : ((c.img_list.length : Int) - 1).toNat = c.img_list.length - 1 := by omega
      rw [hsz, List.getElem?_eq_getElem (by omega : c.img_list.length - 1 < c.img_list.length)]
      rfl
    · rw [getitem]
      have h1 : pyIndex c.img_list (-(1 : Nat) : Int) = c.img_list[c.img_list.length - 1]? :=
        pyIndex_neg c.img_list 1 (Nat.le_refl 1) hpos
      rw [(by norm_num : (-1 : Int) = (-(1 : Nat) : Int)), h1,
        List.getElem?_eq_getElem (by omega : c.img_list.length - 1 < c.img_list.length)]
      rfl
  · intro hz
    rw [getitem, (by norm_num : (-1 : Int) = (-(1 : Nat) : Int)),
      pyIndex_neg_oob c.img_list 1 (by omega : c.img_list.length < 1)]
    rfl

/-- Witness for C1 (amended) at a concrete one-record accessor. -/
theorem c1_witness :
    (getitem uRead cexCS 0).isSome = true
    ∧ (getitem uRead cexCS ((cexCS.size : Int) - 1)).isSome = true
    ∧ (getitem uRead cexCS (-1)).isSome = true :=
  (c1_amended uRead cexCS).2.1 (by decide)

/-- C10: negative indices within `[-size(), -1]` succeed and address the
record at `size() - k`, exactly Python list semantics at the public
interface. -/
theorem c10_negative_index {Img : Type} (imread : List String → Img) (c : CharShapes Img)
    (k : Nat) (h1 : 1 ≤ k) (h2 : k ≤ c.size) :
    (getitem imread c (-(k : Int))).isSome = true
    ∧ getitem imread c (-(k : Int))
        = (c.img_list[c.size - k]?).map
            (fun info => applyTransform c.transform
              (Sample.mk (imread info.image_path) info.code_point)) := by
  simp only [CharShapes.size] at h2 ⊢
  have hp : pyIndex c.img_list (-(k : Int)) = c.img_list[c.img_list.length - k]? :=
    pyIndex_neg c.img_list k h1 h2
  constructor
  · rw [getitem, hp,
      List.getElem?_eq_getElem (by omega : c.img_list.length - k < c.img_list.length)]
    rfl
  · rw [getitem, hp]

/-- Witness for C10 at the one-record accessor with `k = 1`. -/
theorem c10_witness :
    (getitem uRead cexCS (-(1 : Nat) : Int)).isSome = true
    ∧ getitem uRead cexCS (-(1 : Nat) : Int)
        = (cexCS.img_list[cexCS.size - 1]?).map
            (fun info => applyTransform cexCS.transform
              (Sample.mk (uRead info.image_path) info.code_point)) :=
  c10_negative_index uRead cexCS 1 (by decide) (by decide)

/-- C9: `target_transform` is stored by the constructor but never
consulted by `__getitem__`: two accessors built over the same root,
transform and tree but different target transforms return identical
samples at every index. -/
theorem c9_target_transform_unused {Img : Type} (imread : List String → Img)
    (root : List String) (tr : Option (Sample Img → Sample Img))
    (tt1 tt2 : Option (String → String)) (rt : FSTree) (idx : Int) :
    getitem imread (CharShapes.init root tr tt1 rt) idx
      = getitem imread (CharShapes.init root tr tt2 rt) idx := rfl

/-- The claim of C3 fails on the code: an empty label directory
contributes its name to the label set although no record carries it. -/
theorem c3_counterexample :
    (load_img_list pW wTreeEmptyLabel).1 = []
    ∧ ("U+4E00") ∈ (load_img_list pW wTreeEmptyLabel).2 := by
  decide

/-- C3 (amended): the codePoint of every record is in the label set, and
every label is the basename of a directory visited while walking a
discovered character directory — but a label may have no record
carrying it (for example, an empty label directory). -/
theorem c3_amended (p : List String) (t : FSTree) :
    (∀ r ∈ (load_img_list p t).1, r.code_point ∈ (load_img_list p t).2)
    ∧ (∀ s ∈ (load_img_list p t).2,
        ∃ cd ∈ charDirsT p t, ∃ e ∈ walkT cd.1 cd.2, e.1.getLastD ("") = s) := by
  constructor
  · intro r hr
    rcases mem_records.mp hr with ⟨cd, hcd, e, he, fn, hfn, rfl⟩
    exact mem_classes.mpr ⟨cd, hcd, e, he, rfl⟩
  · intro s hs
    exact mem_classes.mp hs

/-- Witness for C3 (amended) at a concrete two-label tree. -/
theorem c3_witness :
    ImgRecord.mk (["h", "raw", "U+4E00", "a.jpg"]) ("U+4E00")
        ∈ (load_img_list pW wTreeFlat).1
    ∧ ("U+4E00") ∈ (load_img_list pW wTreeFlat).2 :=
  ⟨by decide,
   (c3_amended pW wTreeFlat).1
     (ImgRecord.mk (["h", "raw", "U+4E00", "a.jpg"]) ("U+4E00")) (by decide)⟩

/-- The claim of C6 fails on the code: the only record of this tree is
labelled by its immediate parent directory `sub`, whose name does not
contain `"U+"`. -/
theorem c6_counterexample :
    (load_img_list pW wTreeSub).1
      = [ImgRecord.mk (["h", "raw", "U+A", "sub", "f.jpg"]) ("sub")]
    ∧ hasUplus ("sub") = false := by
  decide

/-- C6 (amended): the codePoint of every record equals the name of the
directory directly containing its image file, and that directory lies
at or below a discovered directory whose name contains `"U+"` — but the
own name of the containing directory need not contain `"U+"`. -/
theorem c6_amended (p : List String) (t : FSTree) (r : ImgRecord)
    (hr : r ∈ (load_img_list p t).1) :
    r.code_point = r.image_path.dropLast.getLastD ("")
    ∧ ∃ cd ∈ charDirsT p t, hasUplus (cd.1.getLastD ("")) = true
        ∧ ∃ s2, r.image_path.dropLast = cd.1 ++ s2 := by
  rcases mem_records.mp hr with ⟨cd, hcd, e, he, fn, hfn, rfl⟩
  refine ⟨by simp [List.dropLast_concat], cd, hcd, ?_, ?_⟩
  · rcases mem_charDirsT.mp hcd with ⟨e0, he0, c, hc, hu, rfl⟩
    simpa [getLastD_append_singleton] using hu
  · rcases walkT_path cd.2 cd.1 e he with ⟨s, hs⟩
    exact ⟨s, by simp [List.dropLast_concat, hs]⟩

/-- Witness for C6 (amended) at the concrete nested-plain-directory
tree. -/
theorem c6_witness :
    (ImgRecord.mk (["h", "raw", "U+A", "sub", "f.jpg"]) ("sub")).code_point
      = (ImgRecord.mk (["h", "raw", "U+A", "sub", "f.jpg"])
          ("sub")).image_path.dropLast.getLastD ("")
    ∧ ∃ cd ∈ charDirsT pW wTreeSub, hasUplus (cd.1.getLastD ("")) = true
        ∧ ∃ s2, (ImgRecord.mk (["h", "raw", "U+A", "sub", "f.jpg"])
            ("sub")).image_path.dropLast = cd.1 ++ s2 :=
  c6_amended pW wTreeSub _ (by decide)

/-- The claim of C4 fails on the code: with one `"U+"` directory nested
inside another, the single file is walked twice and yields two records
(one file, two records). -/
theorem c4_counterexample :
    totalFiles wTreeNested = 1 ∧ (load_img_list pW wTreeNested).1.length = 2 := by
  decide

/-- C4 (amended): when no `"U+"`-named directory has subdirectories,
`load_img_list` returns exactly one record per file directly inside a
`"U+"`-named subdirectory (so exactly N records for N such files), and
the label list is duplicate-free and holds exactly the distinct
`"U+"`-containing subdirectory names (K, or fewer after collisions). -/
theorem c4_amended (p : List String) (t : FSTree) (hflat : flatUplus t = true) :
    (load_img_list p t).1.length = countUplusFiles t
    ∧ (load_img_list p t).2.Nodup
    ∧ ∀ s, s ∈ (load_img_list p t).2 ↔ s ∈ uplusNames t := by
  refine ⟨?_, List.nodup_dedup _, ?_⟩
  · show (((charDirsT p t).map (fun cd => dirRecords cd.1 cd.2)).flatten).length = _
    rw [List.length_flatten, List.map_map]
    have hcong : (charDirsT p t).map (List.length ∘ fun cd => dirRecords cd.1 cd.2)
        = (charDirsT p t).map (fun cd => cd.2.files.length) := by
      apply List.map_congr_left
      intro cd hcd
      rcases charDir_flat hflat hcd with ⟨hu, hleaf, hlast⟩
      show (dirRecords cd.1 cd.2).length = _
      rw [dirRecords_leaf hleaf, List.length_map]
    rw [hcong, sum_files_charDirsT]
  · intro s
    have hsingle : ∀ cd ∈ charDirsT p t, dirClasses cd.1 cd.2 = [cd.2.name] := by
      intro cd hcd
      rcases charDir_flat hflat hcd with ⟨hu, hleaf, hlast⟩
      rw [dirClasses_leaf hleaf, hlast]
    show s ∈ (((charDirsT p t).map (fun cd => dirClasses cd.1 cd.2)).flatten).dedup ↔ _
    rw [List.mem_dedup, flatten_map_singleton _ _ _ hsingle]
    constructor
    · intro hs
      rcases List.mem_map.mp hs with ⟨cd, hcd, rfl⟩
      exact (mem_name_charDirsT t p cd.2.name).mp ⟨cd, hcd, rfl⟩
    · intro hs
      rcases (mem_name_charDirsT t p s).mpr hs with ⟨cd, hcd, rfl⟩
      exact List.mem_map.mpr ⟨cd, hcd, rfl⟩

/-- Witness for C4 (amended) at the concrete flat tree (three files,
two labels). -/
theorem c4_witness :
    (load_img_list pW wTreeFlat).1.length = countUplusFiles wTreeFlat
    ∧ (load_img_list pW wTreeFlat).2.Nodup :=
  ⟨(c4_amended pW wTreeFlat (by decide)).1, (c4_amended pW wTreeFlat (by decide)).2.1⟩

theorem foldl_readChunksAux (M : MD5) : ∀ (n : Nat) (l : Content), l.length ≤ n →
    ∀ s, (readChunksAux n l).foldl M.update s = M.update s l := by
  intro n
  induction n with
  | zero =>
    intro l hl s
    have hnil : l = [] := List.eq_nil_of_length_eq_zero (Nat.le_zero.mp hl)
    subst hnil
    simp [readChunksAux, M.update_nil]
  | succ n ih =>
    intro l hl s
    cases l with
    | nil => simp [readChunksAux, M.update_nil]
    | cons x xs =>
      rw [readChunksAux, List.foldl_cons]
      have hlen : (List.drop chunkBytes (x :: xs)).length ≤ n := by
        have hld := List.length_drop chunkBytes (x :: xs)
        have hc : chunkBytes = 1024 * 1024 := rfl
        have hlc : (x :: xs).length = xs.length + 1 := List.length_cons x xs
        omega
      rw [ih (List.drop chunkBytes (x :: xs)) hlen
          (M.update s (List.take chunkBytes (x :: xs))),
        ← M.update_append, List.take_append_drop]

theorem foldl_readChunks (M : MD5) (l : Content) (s : M.State) :
    (readChunks l).foldl M.update s = M.update s l :=
  foldl_readChunksAux M l.length l (Nat.le_refl _) s

/-- The chunked digest loop of `_check_integrity` computes the digest of
the whole file, so the check is true exactly when the file exists and
its digest matches the expected string. -/
theorem check_integrity_spec (M : MD5) (fs : FS) (p : List String) (md5 : String) :
    check_integrity M fs p md5 = true
      ↔ ∃ c, fsLookup fs p = some c ∧ M.digest c = md5 := by
  rw [check_integrity]
  cases hl : fsLookup fs p with
  | none => simp
  | some c =>
    have hfold : (readChunks c).foldl M.update M.start = M.update M.start c :=
      foldl_readChunks M c M.start
    by_cases he : M.hexdigest (M.update M.start c) = md5
    · simp [hfold, MD5.digest, he]
    · simp [hfold, MD5.digest, he]

/-- C5: `_check_integrity(path, C)` is true iff the path names an
existing regular file whose streamed MD5 hex digest equals `C` by exact
case-sensitive string comparison; in particular it is false (and total,
raising nothing) on a non-existent path. -/
theorem c5_verify_iff (M : MD5) (fs : FS) (p : List String) (C : String) :
    check_integrity M fs p C = true
      ↔ ∃ c, fsLookup fs p = some c ∧ M.digest c = C :=
  check_integrity_spec M fs p C

/-- Witness for C5 at a concrete filesystem and checksum. -/
theorem c5_witness :
    check_integrity natMD5 fsVerified (archivePath (["h"]) (filenameOf ("200003076")))
        (zipsMd5Of (filenameOf ("200003076"))) = true
      ↔ ∃ c, fsLookup fsVerified (archivePath (["h"]) (filenameOf ("200003076"))) = some c
          ∧ natMD5.digest c = zipsMd5Of (filenameOf ("200003076")) :=
  c5_verify_iff natMD5 fsVerified (archivePath (["h"]) (filenameOf ("200003076")))
    (zipsMd5Of (filenameOf ("200003076")))

theorem fsLookup_fsWrite (fs : FS) (p : List String) (c : Content) :
    fsLookup (fsWrite fs p c) p = some c := by
  simp [fsWrite, fsLookup]

theorem fsLookup_fsErase (fs : FS) (p : List String) :
    fsLookup (fsErase fs p) p = none := by
  induction fs with
  | nil => rfl
  | cons qc rest ih =>
    obtain ⟨q, c⟩ := qc
    rw [fsErase]
    by_cases h : q = p
    · rw [if_pos h]
      exact ih
    · rw [if_neg h, fsLookup, if_neg h]
      exact ih

/-- A verified archive is skipped after the fetch: the loop body emits
exactly the `urlopen` event and leaves the filesystem untouched. -/
theorem downloadStep_skip (M : MD5) (net : String → Content) (xo : Content → Bool)
    (root : List String) (fs : FS) (b : String)
    (h : check_integrity M fs (archivePath root (filenameOf b))
          (zipsMd5Of (filenameOf b)) = true) :
    downloadStep M net xo root fs b = StepOut.mk fs [Ev.fetch (urlOf b)] true := by
  simp only [filenameOf] at h
  simp only [downloadStep]
  rw [if_pos h]

theorem downloadLoop_verified (M : MD5) (net : String → Content) (xo : Content → Bool)
    (root : List String) :
    ∀ (bs : List String) (fs : FS) (evs : List Ev),
      (∀ b ∈ bs, check_integrity M fs (archivePath root (filenameOf b))
          (zipsMd5Of (filenameOf b)) = true) →
      downloadLoop M net xo root bs fs evs
        = StepOut.mk fs (evs ++ bs.map (fun b => Ev.fetch (urlOf b))) true := by
  intro bs
  induction bs with
  | nil =>
    intro fs evs h
    simp [downloadLoop]
  | cons b rest ih =>
    intro fs evs h
    rw [downloadLoop,
      downloadStep_skip M net xo root fs b (h b (List.mem_cons_self b rest))]
    rw [ih fs (evs ++ [Ev.fetch (urlOf b)])
      (fun d hd => h d (List.mem_cons_of_mem b hd))]
    simp [List.append_assoc]

/-- C2: with every archive already present and verified, a further
`download()` run leaves the filesystem unchanged and performs no write,
extraction or unlink — but it still emits one network fetch per catalog
entry (15 of them), because `urlopen` is called before the integrity
check; the zero-fetch idempotence claim of the spec fails on the code. -/
theorem c2_code_behavior (M : MD5) (net : String → Content) (xo : Content → Bool)
    (root : List String) (fs : FS)
    (h : ∀ b ∈ book_ids, check_integrity M fs (archivePath root (filenameOf b))
          (zipsMd5Of (filenameOf b)) = true) :
    download M net xo root fs
      = StepOut.mk fs (book_ids.map (fun b => Ev.fetch (urlOf b))) true
    ∧ (download M net xo root fs).events.length = book_ids.length := by
  have hd := downloadLoop_verified M net xo root book_ids fs [] h
  constructor
  · rw [download, hd]
    simp
  · rw [download, hd]
    simp

/-- Witness for C2 at a concrete fully verified filesystem. -/
theorem c2_witness :
    download natMD5 netW xoTrue (["h"]) fsVerified
      = StepOut.mk fsVerified (book_ids.map (fun b => Ev.fetch (urlOf b))) true :=
  (c2_code_behavior natMD5 netW xoTrue (["h"]) fsVerified (by decide)).1

/-- C7: when a local archive exists but its digest does not match, the
integrity check fails, the loop re-fetches the URL and writes the full
response body over the archive path, and the write replaces the previous
content entirely. -/
theorem c7_redownload_overwrites (M : MD5) (net : String → Content) (xo : Content → Bool)
    (root : List String) (fs : FS) (b : String) (c : Content)
    (hfile : fsLookup fs (archivePath root (filenameOf b)) = some c)
    (hbad : M.digest c ≠ zipsMd5Of (filenameOf b)) :
    check_integrity M fs (archivePath root (filenameOf b)) (zipsMd5Of (filenameOf b)) = false
    ∧ (downloadStep M net xo root fs b).events.take 2
        = [Ev.fetch (urlOf b),
           Ev.write (archivePath root (filenameOf b)) (net (urlOf b))]
    ∧ fsLookup (fsWrite fs (archivePath root (filenameOf b)) (net (urlOf b)))
        (archivePath root (filenameOf b)) = some (net (urlOf b)) := by
  have hchk : check_integrity M fs (archivePath root (filenameOf b))
      (zipsMd5Of (filenameOf b)) = false := by
    cases hc : check_integrity M fs (archivePath root (filenameOf b))
        (zipsMd5Of (filenameOf b)) with
    | false => rfl
    | true =>
      rcases (check_integrity_spec M fs _ _).mp hc with ⟨d, hd, hdig⟩
      rw [hfile] at hd
      injection hd with hd
      exact absurd (hd ▸ hdig) hbad
  refine ⟨hchk, ?_, fsLookup_fsWrite fs _ _⟩
  simp only [filenameOf] at hchk
  simp only [downloadStep]
  rw [hchk]
  cases hxo : xo (net (urlOf b)) <;> simp [hxo, filenameOf]

/-- Witness for C7 at a concrete stale archive. -/
theorem c7_witness :
    check_integrity natMD5 fsBad (archivePath (["h"]) (filenameOf ("200003076")))
        (zipsMd5Of (filenameOf ("200003076"))) = false
    ∧ (downloadStep natMD5 netW xoTrue (["h"]) fsBad ("200003076")).events.take 2
        = [Ev.fetch (urlOf ("200003076")),
           Ev.write (archivePath (["h"]) (filenameOf ("200003076")))
             (netW (urlOf ("200003076")))]
    ∧ fsLookup (fsWrite fsBad (archivePath (["h"]) (filenameOf ("200003076")))
          (netW (urlOf ("200003076"))))
        (archivePath (["h"]) (filenameOf ("200003076")))
        = some (netW (urlOf ("200003076"))) :=
  c7_redownload_overwrites natMD5 netW xoTrue (["h"]) fsBad ("200003076") ([0])
    (by decide) (by decide)

/-- C8: after a checksum miss the loop writes the archive and attempts
extraction; the archive is unlinked only after a successful extraction
(the unlink event is last), while a failed extraction aborts the run
(`ok = false`), stops the remaining catalog, and leaves the freshly
downloaded archive on disk. -/
theorem c8_archive_preserved (M : MD5) (net : String → Content) (xo : Content → Bool)
    (root : List String) (fs : FS) (b : String)
    (hchk : check_integrity M fs (archivePath root (filenameOf b))
        (zipsMd5Of (filenameOf b)) = false) :
    (xo (net (urlOf b)) = true →
        (downloadStep M net xo root fs b).events
          = [Ev.fetch (urlOf b),
             Ev.write (archivePath root (filenameOf b)) (net (urlOf b)),
             Ev.extract (targetPath root (filenameOf b)),
             Ev.unlink (archivePath root (filenameOf b))]
        ∧ fsLookup (downloadStep M net xo root fs b).fs
            (archivePath root (filenameOf b)) = none
        ∧ (downloadStep M net xo root fs b).ok = true)
    ∧ (xo (net (urlOf b)) = false →
        (downloadStep M net xo root fs b).ok = false
        ∧ fsLookup (downloadStep M net xo root fs b).fs
            (archivePath root (filenameOf b)) = some (net (urlOf b))
        ∧ ∀ (rest : List String) (evs : List Ev),
            downloadLoop M net xo root (b :: rest) fs evs
              = StepOut.mk (downloadStep M net xo root fs b).fs
                  (evs ++ (downloadStep M net xo root fs b).events) false) := by
  simp only [filenameOf, archivePath] at hchk
  constructor
  · intro hxo
    simp only [downloadStep, filenameOf, targetPath, archivePath]
    rw [hchk]
    simp [hxo, fsLookup_fsErase]
  · intro hxo
    refine ⟨?_, ?_, ?_⟩
    · simp only [downloadStep, filenameOf, archivePath]
      rw [hchk]
      simp [hxo]
    · simp only [downloadStep, filenameOf, archivePath]
      rw [hchk]
      simp [hxo, fsLookup_fsWrite]
    · intro rest evs
      rw [downloadLoop]
      simp only [downloadStep, filenameOf, archivePath]
      rw [hchk]
      simp [hxo]

/-- Witness for C8 at a concrete failing extraction (empty initial
filesystem, extractor that always fails). -/
theorem c8_witness :
    (downloadStep natMD5 netW xoFalse (["h"]) [] ("200003076")).ok = false
    ∧ fsLookup (downloadStep natMD5 netW xoFalse (["h"]) [] ("200003076")).fs
        (archivePath (["h"]) (filenameOf ("200003076")))
        = some (netW (urlOf ("200003076"))) := by
  have h := (c8_archive_preserved natMD5 netW xoFalse (["h"]) [] ("200003076")
    (by decide)).2 (by decide)
  exact ⟨h.1, h.2.1⟩
